import Mathlib

/-!
Verification of the progressive-context extension
(`src/extensions/progressive-context.ts`).

Strings are modelled as `List Char` (JS strings of ASCII text).  The
`node:path` and `node:fs` collaborators are modelled explicitly:
`jsJoin`, `jsDirname`, `jsResolve`, `jsRelative` model the posix
behaviour of `path.join`, `path.dirname`, `path.resolve` and
`path.relative` on the path shapes the extension uses, and the file
system is passed in as functions (`isFile : List Char → Bool` for
`fs.statSync(..).isFile()`, with exceptions folded into `false`, and
`fsRead : List Char → Option (List Char)` for `fs.readFileSync`, with
`none` meaning the read throws).
-/

/-- Split a character list on `'/'` (model of `"…".split("/")`). -/
def splitSlash : List Char → List (List Char)
  | [] => [[]]
  | c :: cs =>
    match splitSlash cs with
    | [] => [[c]]
    | h :: t => if c = '/' then [] :: h :: t else (c :: h) :: t

/-- One step of posix path normalization: push a component onto the
(reversed) component stack, resolving `""`, `"."` and `".."`. -/
def normStep (stack : List (List Char)) (comp : List Char) : List (List Char) :=
  if comp = [] ∨ comp = ['.'] then stack
  else if comp = ['.', '.'] then stack.tail
  else comp :: stack

/-- Normalize an absolute posix path (model of the normalization done by
`path.resolve` on an already-absolute argument). -/
def normAbs (p : List Char) : List Char :=
  '/' :: List.intercalate ['/'] (((splitSlash p).foldl normStep []).reverse)

/-- Model of posix `path.isAbsolute`. -/
def isAbsolutePath (p : List Char) : Bool :=
  p.head? = some '/'

/-- Model of posix `path.resolve` on a single absolute argument (the
only way the extension calls it). -/
def jsResolve (p : List Char) : List Char :=
  normAbs p

/-- Model of posix `path.join a b` for the shapes used by the extension
(`a` an absolute directory, `b` a relative segment): concatenation with
a single separator, followed by normalization. -/
def jsJoin (a b : List Char) : List Char :=
  normAbs (a ++ '/' :: b)

/-- Index of the last `'/'` in a character list, if any. -/
def lastSlashIdx : List Char → Option Nat
  | [] => none
  | c :: cs =>
    match lastSlashIdx cs with
    | some i => some (i + 1)
    | none => if c = '/' then some 0 else none

/-- Model of posix `path.dirname`: everything before the last `'/'`,
with `"/"` for a leading slash only and `"."` when there is no slash. -/
def jsDirname (s : List Char) : List Char :=
  match lastSlashIdx s with
  | none => ['.']
  | some 0 => ['/']
  | some i => s.take i

/-- Model of posix `path.relative root p` for the contained shapes the
extension produces: strip `root ++ "/"` when it heads `p`. -/
def jsRelative (root p : List Char) : List Char :=
  if (root ++ ['/']).isPrefixOf p then p.drop (root.length + 1)
  else if p = root then []
  else p

/-- Model of JS `s.lastIndexOf(pat)` (greatest start index of an
occurrence of `pat` in `s`, `-1` when there is none). -/
def lastIndexOfPat : List Char → List Char → Int
  | [], pat => if pat = [] then 0 else -1
  | c :: cs, pat =>
    if 0 ≤ lastIndexOfPat cs pat then lastIndexOfPat cs pat + 1
    else if pat.isPrefixOf (c :: cs) then 0 else -1

/-- The truncation note the source appends
(`"\n\n[Note: Content truncated. Read full file: ${relativePath}]"`). -/
def truncNote (filePath rootDir : List Char) : List Char :=
  "\n\n[Note: Content truncated. Read full file: ".toList
    ++ jsRelative rootDir filePath ++ "]".toList

/-- The `lastBoundary` computation of `truncateContent`: the maximum of
`truncated.lastIndexOf("\n\n")` and `truncated.lastIndexOf("\n---\n")`. -/
def truncBoundary (truncated : List Char) : Int :=
  max (lastIndexOfPat truncated "\n\n".toList)
      (lastIndexOfPat truncated "\n---\n".toList)

/-- Embedding of `truncateContent` (lines 90–108 of the source).  The
float comparison `lastBoundary > maxSize * 0.8` is rendered exactly as
`5 * lastBoundary > 4 * maxSize` over `Int`. -/
def truncateContent (content : List Char) (maxSize : Nat)
    (filePath rootDir : List Char) : List Char :=
  if content.length ≤ maxSize then content
  else if 5 * truncBoundary (content.take maxSize) > 4 * (maxSize : Int) then
    (content.take maxSize).take (truncBoundary (content.take maxSize)).toNat
      ++ truncNote filePath rootDir
  else
    content.take maxSize ++ truncNote filePath rootDir

/-!  Session cache (`getSessionCache`, lines 29–44 of the source).
The JS `Map` is modelled as an association list in insertion order:
head = oldest-inserted entry, new entries appended at the end. -/

/-- Capacity bound `MAX_CACHED_SESSIONS` of the source. -/
def MAX_CACHED_SESSIONS : Nat := 100

/-- The process-wide `sessionCaches` map: session id ↦ `injectedPaths`
(the JS `Set` is an insertion-ordered list without duplicates). -/
abbrev CacheState : Type := List (List Char × List (List Char))

/-- Model of `sessionCaches.get(sid)`. -/
def lookupSession (st : CacheState) (sid : List Char) : Option (List (List Char)) :=
  (st.find? fun en => decide (en.1 = sid)).map Prod.snd

/-- Model of `sessionCaches.has(sid)`. -/
def hasSession (st : CacheState) (sid : List Char) : Bool :=
  (lookupSession st sid).isSome

/-- The eviction step of `getSessionCache`: at capacity with a new id,
delete the first (oldest-inserted) entry of the map. -/
def evictIfFull (st : CacheState) (sid : List Char) : CacheState :=
  if MAX_CACHED_SESSIONS ≤ st.length ∧ hasSession st sid = false
  then st.drop 1 else st

/-- The insert-if-absent step of `getSessionCache`. -/
def insertIfAbsent (st : CacheState) (sid : List Char) : CacheState :=
  if hasSession st sid then st else st ++ [(sid, [])]

/-- Embedding of `getSessionCache`: evict the oldest entry when at
capacity and the id is new, then insert-if-absent and return the
entry.  Returns the updated map together with the entry. -/
def getSessionCache (st : CacheState) (sid : List Char) :
    CacheState × List (List Char) :=
  (insertIfAbsent (evictIfFull st sid) sid,
   (lookupSession (insertIfAbsent (evictIfFull st sid) sid) sid).getD [])

/-- Write a session's `injectedPaths` back (in JS the `Set` object is
mutated in place, so the map's entry order is unchanged). -/
def setSession (st : CacheState) (sid : List Char)
    (entry : List (List Char)) : CacheState :=
  st.map fun en => if en.1 = sid then (sid, entry) else en

/-!  Hierarchy resolver (`findAgentsFilesUp`, lines 46–88). -/

/-- The inner `for` loop of `findAgentsFilesUp`: test the candidate
filenames in order and take the first that names an existing file. -/
def firstMatch (isFile : List Char → Bool) (dir : List Char) :
    List (List Char) → Option (List Char)
  | [] => none
  | f :: fs =>
    if isFile (jsJoin dir f) then some (jsJoin dir f)
    else firstMatch isFile dir fs

/-- Termination measure for the ancestor walk: `jsDirname` strictly
decreases it whenever it changes its argument. -/
def pathMeasure (s : List Char) : Nat :=
  2 * s.length + (if s = ['.'] then 0 else if s = [] then 4 else 2)

theorem lastSlashIdx_lt_length {c : List Char} {j : Nat}
    (h : lastSlashIdx c = some j) : j < c.length := by
  induction c generalizing j with
  | nil => simp [lastSlashIdx] at h
  | cons x xs ih =>
    rw [lastSlashIdx] at h
    cases hx : lastSlashIdx xs with
    | some i =>
      rw [hx] at h
      simp only [Option.some.injEq] at h
      subst h
      simpa using ih hx
    | none =>
      rw [hx] at h
      by_cases hs : x = '/'
      · rw [if_pos hs] at h
        cases h
        exact Nat.succ_pos xs.length
      · rw [if_neg hs] at h
        cases h

theorem lastSlashIdx_zero {c : List Char}
    (h : lastSlashIdx c = some 0) :
    ∃ cs, c = '/' :: cs ∧ lastSlashIdx cs = none := by
  cases c with
  | nil => simp [lastSlashIdx] at h
  | cons x xs =>
    rw [lastSlashIdx] at h
    cases hx : lastSlashIdx xs with
    | some i => rw [hx] at h; simp at h
    | none =>
      rw [hx] at h
      by_cases hs : x = '/'
      · exact ⟨xs, by simp [hs], hx⟩
      · simp [hs] at h

theorem lastSlashIdx_none_of_no_slash {c : List Char}
    (h : lastSlashIdx c = some 0) : ('/' : Char) ∈ c := by
  obtain ⟨cs, rfl, -⟩ := lastSlashIdx_zero h
  simp

theorem mem_slash_of_lastSlashIdx {c : List Char} {j : Nat}
    (h : lastSlashIdx c = some j) : ('/' : Char) ∈ c := by
  induction c generalizing j with
  | nil => simp [lastSlashIdx] at h
  | cons x xs ih =>
    rw [lastSlashIdx] at h
    cases hx : lastSlashIdx xs with
    | some i => exact List.mem_cons_of_mem _ (ih hx)
    | none =>
      rw [hx] at h
      by_cases hs : x = '/'
      · simp [hs]
      · simp [hs] at h

theorem jsDirname_of_none {s : List Char} (h : lastSlashIdx s = none) :
    jsDirname s = ['.'] := by
  unfold jsDirname; rw [h]

theorem jsDirname_of_zero {s : List Char} (h : lastSlashIdx s = some 0) :
    jsDirname s = ['/'] := by
  unfold jsDirname; rw [h]

theorem jsDirname_of_succ {s : List Char} {n : Nat}
    (h : lastSlashIdx s = some (n + 1)) : jsDirname s = s.take (n + 1) := by
  unfold jsDirname
  rw [h]
  rfl

theorem pathMeasure_ne_nil_le {t : List Char} (h : t ≠ []) :
    pathMeasure t ≤ 2 * t.length + 2 := by
  unfold pathMeasure
  by_cases hd : t = ['.']
  · rw [if_pos hd]; omega
  · rw [if_neg hd, if_neg h]

theorem pathMeasure_dirname_lt (c : List Char) (h : jsDirname c ≠ c) :
    pathMeasure (jsDirname c) < pathMeasure c := by
  cases hL : lastSlashIdx c with
  | none =>
    rw [jsDirname_of_none hL] at h ⊢
    cases c with
    | nil => decide
    | cons x xs =>
      have hne : (x :: xs) ≠ (['.'] : List Char) := fun hc => h hc.symm
      have hdot : pathMeasure ['.'] = 2 := by decide
      rw [hdot]
      unfold pathMeasure
      rw [if_neg hne, if_neg (List.cons_ne_nil x xs)]
      simp only [List.length_cons]
      omega
  | some i =>
    have hslash : ('/' : Char) ∈ c := mem_slash_of_lastSlashIdx hL
    have hcdot : c ≠ ['.'] := by
      intro hc; rw [hc] at hslash; simp at hslash
    have hcnil : c ≠ [] := by
      intro hc; rw [hc] at hslash; simp at hslash
    have hc2 : pathMeasure c = 2 * c.length + 2 := by
      unfold pathMeasure; rw [if_neg hcdot, if_neg hcnil]
    cases i with
    | zero =>
      rw [jsDirname_of_zero hL] at h ⊢
      obtain ⟨cs, rfl, -⟩ := lastSlashIdx_zero hL
      have hcs : cs ≠ [] := by
        intro hc; subst hc; exact h rfl
      have hlen : 0 < cs.length := List.length_pos.mpr hcs
      have hsl : pathMeasure ['/'] = 4 := by decide
      rw [hsl, hc2]
      simp only [List.length_cons]
      omega
    | succ n =>
      rw [jsDirname_of_succ hL] at h ⊢
      have hlt : n + 1 < c.length := lastSlashIdx_lt_length hL
      have htlen : (c.take (n + 1)).length = n + 1 := by
        rw [List.length_take]; omega
      have htne : c.take (n + 1) ≠ [] := by
        intro hc; rw [hc] at htlen; simp at htlen
      have hb := pathMeasure_ne_nil_le htne
      rw [htlen] at hb
      rw [hc2]
      omega

theorem pathMeasure_pos (s : List Char) : 1 ≤ pathMeasure s := by
  unfold pathMeasure
  by_cases h1 : s = ['.']
  · subst h1; decide
  · rw [if_neg h1]
    by_cases h2 : s = []
    · subst h2; decide
    · rw [if_neg h2]; omega

/-- One directory visit of the walk: test the filenames unless this is
the root directory and `excludeRoot` is set. -/
def visitDir (isFile : List Char → Bool) (current root : List Char)
    (names : List (List Char)) (exR : Bool) : List (List Char) :=
  if ¬ current = root ∨ exR = false then (firstMatch isFile current names).toList
  else []

/-- The `while (true)` walk of `findAgentsFilesUp`, with a structural
fuel argument (always called with fuel at least `pathMeasure current`,
which suffices: see `faWalkF_fuel_irrel`).  Returns matches in walk
order (start directory first). -/
def faWalkF (isFile : List Char → Bool) (root : List Char)
    (names : List (List Char)) (exR : Bool) :
    Nat → List Char → List (List Char)
  | 0, _ => []
  | fuel + 1, current =>
    if current = root ∨ (¬ root.isPrefixOf current = true ∧ current ≠ root) then
      visitDir isFile current root names exR
    else if jsDirname current = current then
      visitDir isFile current root names exR
    else
      visitDir isFile current root names exR
        ++ faWalkF isFile root names exR fuel (jsDirname current)

theorem faWalkF_fuel_irrel (isFile : List Char → Bool) (root : List Char)
    (names : List (List Char)) (exR : Bool) :
    ∀ (n : Nat) (current : List Char) (f1 f2 : Nat),
      pathMeasure current ≤ n → pathMeasure current ≤ f1 →
      pathMeasure current ≤ f2 →
      faWalkF isFile root names exR f1 current
        = faWalkF isFile root names exR f2 current := by
  intro n
  induction n using Nat.strong_induction_on with
  | _ n ih =>
    intro current f1 f2 hn h1 h2
    have hpos := pathMeasure_pos current
    cases f1 with
    | zero => omega
    | succ a =>
      cases f2 with
      | zero => omega
      | succ b =>
        rw [faWalkF]
        rw [faWalkF]
        by_cases hstop :
            current = root ∨ (¬ root.isPrefixOf current = true ∧ current ≠ root)
        · rw [if_pos hstop, if_pos hstop]
        · rw [if_neg hstop, if_neg hstop]
          by_cases hpar : jsDirname current = current
          · rw [if_pos hpar, if_pos hpar]
          · rw [if_neg hpar, if_neg hpar]
            congr 1
            have hlt := pathMeasure_dirname_lt current hpar
            exact ih (pathMeasure (jsDirname current)) (by omega)
              (jsDirname current) a b (Nat.le_refl _) (by omega) (by omega)

/-- The walk started with sufficient fuel. -/
def faWalk (isFile : List Char → Bool) (root : List Char)
    (names : List (List Char)) (exR : Bool) (current : List Char) :
    List (List Char) :=
  faWalkF isFile root names exR (pathMeasure current) current

/-- The recursion equation of the walk: the per-iteration body of the
source's `while (true)` loop. -/
theorem faWalk_eq (isFile : List Char → Bool) (root : List Char)
    (names : List (List Char)) (exR : Bool) (current : List Char) :
    faWalk isFile root names exR current =
      if current = root ∨ (¬ root.isPrefixOf current = true ∧ current ≠ root) then
        visitDir isFile current root names exR
      else if jsDirname current = current then
        visitDir isFile current root names exR
      else
        visitDir isFile current root names exR
          ++ faWalk isFile root names exR (jsDirname current) := by
  unfold faWalk
  have hpos := pathMeasure_pos current
  obtain ⟨k, hk⟩ : ∃ k, pathMeasure current = k + 1 :=
    ⟨pathMeasure current - 1, by omega⟩
  rw [hk, faWalkF]
  by_cases hstop :
      current = root ∨ (¬ root.isPrefixOf current = true ∧ current ≠ root)
  · rw [if_pos hstop, if_pos hstop]
  · rw [if_neg hstop, if_neg hstop]
    by_cases hpar : jsDirname current = current
    · rw [if_pos hpar, if_pos hpar]
    · rw [if_neg hpar, if_neg hpar]
      congr 1
      have hlt := pathMeasure_dirname_lt current hpar
      exact faWalkF_fuel_irrel isFile root names exR
        (pathMeasure (jsDirname current)) (jsDirname current) k
        (pathMeasure (jsDirname current)) (Nat.le_refl _) (by omega)
        (Nat.le_refl _)

/-- Embedding of `findAgentsFilesUp` (the walk followed by the final
`found.reverse()`, so results are outermost-first). -/
def findAgentsFilesUp (isFile : List Char → Bool)
    (startDir rootDir : List Char) (names : List (List Char))
    (exR : Bool) : List (List Char) :=
  (faWalk isFile rootDir names exR startDir).reverse

/-!  Coordinator: the `tool_result` hook handler (lines 136–204) and the
`inject_context` tool (lines 214–269). -/

/-- A content block of a tool-result payload
(`{type:"text", text: …}` or any other block kind, left opaque). -/
inductive Block : Type
  | text (s : List Char)
  | other (tag : Nat)
deriving DecidableEq

/-- The fields of the `tool_result` event the handler reads.  The
`input.path` argument is `none` when missing or not a string; `details`
is opaque. -/
structure ToolEvent : Type where
  toolName : List Char
  inputPath : Option (List Char)
  content : List Block
  details : Nat
  isError : Bool
deriving DecidableEq

/-- The replacement result the handler may return. -/
structure ToolResult : Type where
  content : List Block
  details : Nat
  isError : Bool
deriving DecidableEq

/-- What one hook invocation produces: an optional replacement result
(`none` = the handler returned without a value, payload untouched), the
updated session-cache table, and whether the path-safety warning was
emitted. -/
structure HandlerOut : Type where
  result : Option ToolResult
  caches : CacheState
  warned : Bool

/-- The merged configuration object. -/
structure Config : Type where
  maxContextSize : Nat
  filenames : List (List Char)
  excludeRoot : Bool

/-- `CONTEXT_SEPARATOR` of the source. -/
def CONTEXT_SEPARATOR : List Char := "\n\n---\n\n".toList

/-- The fragment loop of the handler (lines 170–185): skip paths already
in `injectedPaths`, read each remaining fragment (a `none` read models a
thrown `readFileSync`, which is caught, logged and skipped), bound its
size, label it, and record it as delivered.  Returns the accumulated
context strings and the final `injectedPaths`. -/
def fragmentLabel (root p content : List Char) (maxSize : Nat) : List Char :=
  "[Directory Context: ".toList ++ jsRelative root p
    ++ "]\n".toList ++ truncateContent content maxSize p root

def processFragments (fsRead : List Char → Option (List Char))
    (maxSize : Nat) (root : List Char) (delivered : List (List Char)) :
    List (List Char) → List (List Char) × List (List Char)
  | [] => ([], delivered)
  | p :: ps =>
    if p ∈ delivered then processFragments fsRead maxSize root delivered ps
    else
      match fsRead p with
      | none => processFragments fsRead maxSize root delivered ps
      | some content =>
        (fragmentLabel root p content maxSize
            :: (processFragments fsRead maxSize root (delivered ++ [p]) ps).1,
         (processFragments fsRead maxSize root (delivered ++ [p]) ps).2)

/-- The absolute target path the handler computes from the event's path
argument (lines 147–149). -/
def absTarget (rootDir fp : List Char) : List Char :=
  if isAbsolutePath fp then fp else jsJoin rootDir fp

/-- The fragment paths the handler resolves for a read of `fp`: the
walk starts at `path.dirname(absolutePath)` against the resolved root,
with the configured filenames and `excludeRoot`. -/
def handlerAgents (isFile : List Char → Bool) (cfg : Config)
    (rootDir fp : List Char) : List (List Char) :=
  findAgentsFilesUp isFile (jsDirname (absTarget rootDir fp))
    (jsResolve rootDir) cfg.filenames cfg.excludeRoot

/-- The fragment loop of one handler invocation, run on the session's
current `injectedPaths`. -/
def handlerAcc (isFile : List Char → Bool)
    (fsRead : List Char → Option (List Char)) (cfg : Config)
    (rootDir : List Char) (st : CacheState) (sid fp : List Char) :
    List (List Char) × List (List Char) :=
  processFragments fsRead cfg.maxContextSize (jsResolve rootDir)
    (getSessionCache st sid).2 (handlerAgents isFile cfg rootDir fp)

/-- The handler past its guards (lines 159–204): obtain the session
cache entry, resolve fragments, process them, and either return the
augmented result or nothing. -/
def handlerCore (isFile : List Char → Bool)
    (fsRead : List Char → Option (List Char)) (cfg : Config)
    (rootDir : List Char) (st : CacheState) (sid : List Char)
    (ev : ToolEvent) (fp : List Char) : HandlerOut :=
  if handlerAgents isFile cfg rootDir fp = [] then
    ⟨none, (getSessionCache st sid).1, false⟩
  else if (handlerAcc isFile fsRead cfg rootDir st sid fp).1 = [] then
    ⟨none, setSession (getSessionCache st sid).1 sid
      (handlerAcc isFile fsRead cfg rootDir st sid fp).2, false⟩
  else
    ⟨some ⟨ev.content
        ++ [Block.text (CONTEXT_SEPARATOR
              ++ List.intercalate CONTEXT_SEPARATOR
                  (handlerAcc isFile fsRead cfg rootDir st sid fp).1)],
      ev.details, ev.isError⟩,
     setSession (getSessionCache st sid).1 sid
       (handlerAcc isFile fsRead cfg rootDir st sid fp).2, false⟩

/-- Embedding of the `tool_result` hook handler (lines 136–204): the
tool-name and path-argument guards, the path-safety containment check
(warn and return on failure, before any cache access), then the core. -/
def onToolResult (isFile : List Char → Bool)
    (fsRead : List Char → Option (List Char)) (cfg : Config)
    (rootDir : List Char) (st : CacheState) (sid : List Char)
    (ev : ToolEvent) : HandlerOut :=
  if ev.toolName ≠ "read".toList then ⟨none, st, false⟩
  else
    match ev.inputPath with
    | none => ⟨none, st, false⟩
    | some fp =>
      if fp = [] then ⟨none, st, false⟩
      else if ¬ (jsResolve rootDir).isPrefixOf
          (jsResolve (absTarget rootDir fp)) = true then
        ⟨none, st, true⟩
      else handlerCore isFile fsRead cfg rootDir st sid ev fp

/-- Result shape of the `inject_context` tool execution. -/
structure InjectOut : Type where
  content : List Block
  isError : Bool

/-- Embedding of the `inject_context` tool's `execute` (lines 228–268):
same containment check, then the resolver with `excludeRoot` forced off
and no session-cache filtering. -/
def injectExecute (isFile : List Char → Bool)
    (fsRead : List Char → Option (List Char)) (cfg : Config)
    (rootDir dirArg : List Char) : InjectOut :=
  let resolvedRoot := jsResolve rootDir
  let absoluteDir :=
    if isAbsolutePath dirArg then jsResolve dirArg else jsJoin resolvedRoot dirArg
  if ¬ resolvedRoot.isPrefixOf absoluteDir = true then
    ⟨[Block.text ("Error: Directory ".toList ++ dirArg
      ++ " is outside the workspace".toList)], true⟩
  else
    let agentsFiles :=
      findAgentsFilesUp isFile absoluteDir resolvedRoot cfg.filenames false
    if agentsFiles = [] then
      ⟨[Block.text ("No AGENTS.md files found in ".toList ++ dirArg
        ++ " or parent directories".toList)], false⟩
    else
      let contexts := agentsFiles.map fun p =>
        match fsRead p with
        | some content =>
          "[".toList ++ jsRelative resolvedRoot p ++ "]:\n".toList
            ++ truncateContent content cfg.maxContextSize p resolvedRoot
        | none => "[Error reading ".toList ++ p ++ "]".toList
      ⟨[Block.text (List.intercalate CONTEXT_SEPARATOR contexts)], false⟩

/-- The `while (true)` loop of `findAgentsFilesUp` as a literal
step-counting loop: `none` means the loop has not halted within `fuel`
iterations.  Used to state that the walk always halts. -/
def faWalkFuel (isFile : List Char → Bool) (root : List Char)
    (names : List (List Char)) (exR : Bool) :
    Nat → List Char → Option (List (List Char))
  | 0, _ => none
  | fuel + 1, current =>
    if current = root ∨ (¬ root.isPrefixOf current = true ∧ current ≠ root) then
      some (visitDir isFile current root names exR)
    else if jsDirname current = current then
      some (visitDir isFile current root names exR)
    else
      (faWalkFuel isFile root names exR fuel (jsDirname current)).map
        (fun r => visitDir isFile current root names exR ++ r)

/-!  Cache lemmas and claim C1. -/

theorem lookupSession_eq_none_iff {st : CacheState} {sid : List Char} :
    lookupSession st sid = none ↔ ∀ en ∈ st, en.1 ≠ sid := by
  unfold lookupSession
  rw [Option.map_eq_none', List.find?_eq_none]
  simp

theorem hasSession_eq_false {st : CacheState} {sid : List Char} :
    hasSession st sid = false ↔ lookupSession st sid = none := by
  unfold hasSession
  cases lookupSession st sid <;> simp

theorem lookupSession_append_left_none {a b : CacheState} {sid : List Char}
    (h : lookupSession a sid = none) :
    lookupSession (a ++ b) sid = lookupSession b sid := by
  induction a with
  | nil => rfl
  | cons en rest ih =>
    have hne : en.1 ≠ sid := (lookupSession_eq_none_iff.mp h) en (by simp)
    have hrest : lookupSession rest sid = none := by
      rw [lookupSession_eq_none_iff]
      intro x hx
      exact (lookupSession_eq_none_iff.mp h) x (List.mem_cons_of_mem _ hx)
    show lookupSession (en :: (rest ++ b)) sid = lookupSession b sid
    unfold lookupSession
    rw [List.find?_cons_of_neg _ (by simp [hne])]
    exact ih hrest

theorem lookupSession_singleton_self (sid : List Char) (v : List (List Char)) :
    lookupSession [(sid, v)] sid = some v := by
  unfold lookupSession
  rw [List.find?_cons_of_pos _ (by simp)]
  rfl

theorem getSessionCache_fst (st : CacheState) (sid : List Char) :
    (getSessionCache st sid).1 = insertIfAbsent (evictIfFull st sid) sid := rfl

theorem getSessionCache_snd (st : CacheState) (sid : List Char) :
    (getSessionCache st sid).2 =
      (lookupSession (insertIfAbsent (evictIfFull st sid) sid) sid).getD [] := rfl

theorem getSessionCache_length_le {st : CacheState} (sid : List Char)
    (h : st.length ≤ MAX_CACHED_SESSIONS) :
    ((getSessionCache st sid).1).length ≤ MAX_CACHED_SESSIONS := by
  rw [getSessionCache_fst]
  by_cases hh : hasSession st sid = false
  · by_cases hlen : MAX_CACHED_SESSIONS ≤ st.length
    · have hcc : MAX_CACHED_SESSIONS ≤ st.length ∧ hasSession st sid = false :=
        ⟨hlen, hh⟩
      have hev : evictIfFull st sid = st.drop 1 := by
        unfold evictIfFull; rw [if_pos hcc]
      have hdrop : lookupSession (st.drop 1) sid = none := by
        rw [lookupSession_eq_none_iff]
        intro en hen
        exact (lookupSession_eq_none_iff.mp (hasSession_eq_false.mp hh)) en
          (List.drop_subset 1 st hen)
      have hnot : ¬ hasSession (st.drop 1) sid = true := by
        rw [hasSession_eq_false.mpr hdrop]; exact Bool.false_ne_true
      have hins : insertIfAbsent (st.drop 1) sid = st.drop 1 ++ [(sid, [])] := by
        unfold insertIfAbsent; rw [if_neg hnot]
      rw [hev, hins]
      simp only [List.length_append, List.length_drop, List.length_cons,
        List.length_nil]
      unfold MAX_CACHED_SESSIONS at *
      omega
    · have hcc : ¬ (MAX_CACHED_SESSIONS ≤ st.length ∧ hasSession st sid = false) :=
        fun hc => hlen hc.1
      have hev : evictIfFull st sid = st := by
        unfold evictIfFull; rw [if_neg hcc]
      have hnot : ¬ hasSession st sid = true := by
        rw [hh]; exact Bool.false_ne_true
      have hins : insertIfAbsent st sid = st ++ [(sid, [])] := by
        unfold insertIfAbsent; rw [if_neg hnot]
      rw [hev, hins]
      simp only [List.length_append, List.length_cons, List.length_nil]
      unfold MAX_CACHED_SESSIONS at *
      omega
  · have hh' : hasSession st sid = true := by
      cases hx : hasSession st sid
      · exact absurd hx hh
      · rfl
    have hcc : ¬ (MAX_CACHED_SESSIONS ≤ st.length ∧ hasSession st sid = false) :=
      fun hc => hh hc.2
    have hev : evictIfFull st sid = st := by
      unfold evictIfFull; rw [if_neg hcc]
    have hins : insertIfAbsent st sid = st := by
      unfold insertIfAbsent; rw [hev] at *; rw [if_pos hh']
    rw [hev, hins]
    exact h

/-- C1: over any sequence of `getOrCreate` calls started from the empty
table, the number of tracked sessions never exceeds the capacity bound
of 100; and at capacity a new session id evicts the oldest-inserted
entry, after which a `getOrCreate` for the evicted id starts with an
empty `injectedPaths` set. -/
theorem c1_session_cache_bound :
    (∀ sids : List (List Char),
      ((sids.foldl (fun st s => (getSessionCache st s).1) ([] : CacheState))).length
        ≤ MAX_CACHED_SESSIONS)
    ∧ ∀ (st : CacheState) (sid e : List Char) (ps : List (List Char)),
        (st.map Prod.fst).Nodup → st.length = 100 →
        lookupSession st sid = none → st.head? = some (e, ps) →
        (getSessionCache st sid).1 = st.tail ++ [(sid, [])]
        ∧ (getSessionCache ((getSessionCache st sid).1) e).2 = [] := by
  constructor
  · intro sids
    have main : ∀ (l : List (List Char)) (st : CacheState),
        st.length ≤ MAX_CACHED_SESSIONS →
        ((l.foldl (fun st s => (getSessionCache st s).1) st)).length
          ≤ MAX_CACHED_SESSIONS := by
      intro l
      induction l with
      | nil => intro st h; exact h
      | cons s rest ih =>
        intro st h
        exact ih _ (getSessionCache_length_le s h)
    exact main sids [] (by simp [MAX_CACHED_SESSIONS])
  · intro st sid e ps hnd hlen hnone hhead
    have hhs : hasSession st sid = false := hasSession_eq_false.mpr hnone
    have hcc : MAX_CACHED_SESSIONS ≤ st.length ∧ hasSession st sid = false :=
      ⟨by unfold MAX_CACHED_SESSIONS; omega, hhs⟩
    have htail_none : lookupSession st.tail sid = none := by
      rw [lookupSession_eq_none_iff]
      intro en hen
      exact (lookupSession_eq_none_iff.mp hnone) en (List.mem_of_mem_tail hen)
    have hstep1 : (getSessionCache st sid).1 = st.tail ++ [(sid, [])] := by
      rw [getSessionCache_fst]
      have hev : evictIfFull st sid = st.tail := by
        unfold evictIfFull; rw [if_pos hcc, List.drop_one]
      have hnot : ¬ hasSession st.tail sid = true := by
        rw [hasSession_eq_false.mpr htail_none]; exact Bool.false_ne_true
      rw [hev]
      unfold insertIfAbsent
      rw [if_neg hnot]
    refine ⟨hstep1, ?_⟩
    obtain ⟨en, rest, rfl⟩ : ∃ en rest, st = en :: rest := by
      cases st with
      | nil => simp at hhead
      | cons en rest => exact ⟨en, rest, rfl⟩
    have hen : en = (e, ps) := by simpa using hhead
    subst hen
    have hrest_e : ∀ en' ∈ rest, en'.1 ≠ e := by
      intro en' hen' hcontra
      have hmem : e ∈ rest.map Prod.fst := by
        rw [← hcontra]; exact List.mem_map_of_mem Prod.fst hen'
      simp only [List.map_cons, List.nodup_cons] at hnd
      exact hnd.1 hmem
    have hsid_ne_e : sid ≠ e := by
      intro hcontra
      exact (lookupSession_eq_none_iff.mp hnone) (e, ps) (by simp) hcontra.symm
    rw [hstep1]
    set st2 : CacheState := ((e, ps) :: rest).tail ++ [(sid, [])] with hst2
    have hkeys : ∀ en' ∈ st2, en'.1 ≠ e := by
      intro en' hen'
      rw [hst2] at hen'
      simp only [List.tail_cons, List.mem_append, List.mem_singleton] at hen'
      rcases hen' with h1 | h1
      · exact hrest_e en' h1
      · rw [h1]; exact hsid_ne_e
    have hnone2 : lookupSession st2 e = none :=
      lookupSession_eq_none_iff.mpr hkeys
    have hlen2 : st2.length = 100 := by
      rw [hst2]
      simp only [List.tail_cons, List.length_append, List.length_cons,
        List.length_nil]
      simp only [List.length_cons] at hlen
      omega
    have hcc2 : MAX_CACHED_SESSIONS ≤ st2.length ∧ hasSession st2 e = false := by
      constructor
      · rw [hlen2]; unfold MAX_CACHED_SESSIONS; omega
      · exact hasSession_eq_false.mpr hnone2
    have hdrop_none : lookupSession (st2.drop 1) e = none := by
      rw [lookupSession_eq_none_iff]
      intro en' hen'
      exact hkeys en' (List.drop_subset 1 _ hen')
    rw [getSessionCache_snd]
    have hev2 : evictIfFull st2 e = st2.drop 1 := by
      unfold evictIfFull; rw [if_pos hcc2]
    have hnot2 : ¬ hasSession (st2.drop 1) e = true := by
      rw [hasSession_eq_false.mpr hdrop_none]; exact Bool.false_ne_true
    have hins2 : insertIfAbsent (st2.drop 1) e = st2.drop 1 ++ [(e, [])] := by
      unfold insertIfAbsent; rw [if_neg hnot2]
    rw [hev2, hins2]
    rw [lookupSession_append_left_none hdrop_none, lookupSession_singleton_self]
    rfl

/-- A full table of 100 distinct session ids for the C1 witness. -/
def c1State : CacheState :=
  (List.range 100).map fun i => ([Char.ofNat (200 + i)], ([] : List (List Char)))

/-- Witness for C1: on a concrete full table, a new id evicts the
oldest entry and a later `getOrCreate` for the evicted id starts empty. -/
theorem c1_session_cache_bound_witness :
    (getSessionCache c1State ['a']).1 = c1State.tail ++ [(['a'], [])]
    ∧ (getSessionCache ((getSessionCache c1State ['a']).1) [Char.ofNat 200]).2 = [] :=
  c1_session_cache_bound.2 c1State ['a'] [Char.ofNat 200] []
    (by decide) (by decide) (by decide) (by decide)

/-!  Truncation lemmas and claims C3 and C4. -/

theorem lastIndexOfPat_nil (pat : List Char) :
    lastIndexOfPat [] pat = if pat = [] then 0 else -1 := rfl

theorem lastIndexOfPat_cons (c : Char) (cs pat : List Char) :
    lastIndexOfPat (c :: cs) pat =
      if 0 ≤ lastIndexOfPat cs pat then lastIndexOfPat cs pat + 1
      else if pat.isPrefixOf (c :: cs) then 0 else -1 := rfl

theorem isPrefixOf_nil_eq {pat : List Char} (hp : pat ≠ []) :
    pat.isPrefixOf ([] : List Char) = false := by
  cases pat with
  | nil => exact absurd rfl hp
  | cons a as => rfl

/-- `lastIndexOfPat` finds the greatest start index of an occurrence of
the (nonempty) pattern, or returns `-1` when the pattern never occurs. -/
theorem lastIndexOfPat_spec (s pat : List Char) (hp : pat ≠ []) :
    (lastIndexOfPat s pat = -1 ∧ ∀ i, ¬ pat.isPrefixOf (s.drop i) = true)
    ∨ ∃ n : Nat, lastIndexOfPat s pat = (n : Int)
        ∧ pat.isPrefixOf (s.drop n) = true
        ∧ ∀ j, pat.isPrefixOf (s.drop j) = true → j ≤ n := by
  induction s with
  | nil =>
    left
    refine ⟨by rw [lastIndexOfPat_nil, if_neg hp], ?_⟩
    intro i
    rw [List.drop_nil, isPrefixOf_nil_eq hp]
    exact Bool.false_ne_true
  | cons c cs ih =>
    rcases ih with ⟨h1, h2⟩ | ⟨n, h1, h2, h3⟩
    · have hneg : ¬ (0 : Int) ≤ lastIndexOfPat cs pat := by rw [h1]; omega
      by_cases hpre : pat.isPrefixOf (c :: cs) = true
      · right
        refine ⟨0, ?_, ?_, ?_⟩
        · rw [lastIndexOfPat_cons, if_neg hneg, if_pos hpre]
          simp
        · simpa using hpre
        · intro j hj
          cases j with
          | zero => exact Nat.le_refl 0
          | succ k =>
            rw [List.drop_succ_cons] at hj
            exact absurd hj (h2 k)
      · left
        refine ⟨by rw [lastIndexOfPat_cons, if_neg hneg, if_neg hpre], ?_⟩
        intro i
        cases i with
        | zero => simpa using hpre
        | succ k =>
          rw [List.drop_succ_cons]
          exact h2 k
    · right
      have hpos : (0 : Int) ≤ lastIndexOfPat cs pat := by rw [h1]; omega
      refine ⟨n + 1, ?_, ?_, ?_⟩
      · rw [lastIndexOfPat_cons, if_pos hpos, h1]
        push_cast
        ring
      · rw [List.drop_succ_cons]
        exact h2
      · intro j hj
        cases j with
        | zero => omega
        | succ k =>
          rw [List.drop_succ_cons] at hj
          exact Nat.succ_le_succ (h3 k hj)

/-- The boundary notion the source actually implements: an occurrence
of `"\n\n"` or of the exact five-character sequence `"\n---\n"`. -/
def amendedBoundaryAt (t : List Char) (i : Nat) : Prop :=
  "\n\n".toList.isPrefixOf (t.drop i) = true
  ∨ "\n---\n".toList.isPrefixOf (t.drop i) = true

instance amendedBoundaryAt.instDecidable (t : List Char) (i : Nat) :
    Decidable (amendedBoundaryAt t i) := by
  unfold amendedBoundaryAt
  infer_instance

/-- `truncBoundary` is the greatest index of an implemented boundary,
or `-1` when there is none. -/
theorem truncBoundary_spec (t : List Char) :
    (truncBoundary t = -1 ∧ ∀ i, ¬ amendedBoundaryAt t i)
    ∨ ∃ n : Nat, truncBoundary t = (n : Int) ∧ amendedBoundaryAt t n
        ∧ ∀ j, amendedBoundaryAt t j → j ≤ n := by
  have hs1 := lastIndexOfPat_spec t "\n\n".toList (by decide)
  have hs2 := lastIndexOfPat_spec t "\n---\n".toList (by decide)
  unfold truncBoundary
  rcases hs1 with ⟨e1, n1⟩ | ⟨a, ea, oa, ma⟩
  · rcases hs2 with ⟨e2, n2⟩ | ⟨b, eb, ob, mb⟩
    · left
      refine ⟨by rw [e1, e2]; simp, ?_⟩
      intro i hi
      rcases hi with hi | hi
      · exact n1 i hi
      · exact n2 i hi
    · right
      refine ⟨b, ?_, Or.inr ob, ?_⟩
      · rw [e1, eb]
        have : (-1 : Int) ≤ (b : Int) := by omega
        omega
      · intro j hj
        rcases hj with hj | hj
        · exact absurd hj (n1 j)
        · exact mb j hj
  · rcases hs2 with ⟨e2, n2⟩ | ⟨b, eb, ob, mb⟩
    · right
      refine ⟨a, ?_, Or.inl oa, ?_⟩
      · rw [ea, e2]
        omega
      · intro j hj
        rcases hj with hj | hj
        · exact ma j hj
        · exact absurd hj (n2 j)
    · right
      refine ⟨max a b, ?_, ?_, ?_⟩
      · rw [ea, eb]
        rcases Nat.le_total a b with hab | hab
        · rw [Nat.max_eq_right hab]
          omega
        · rw [Nat.max_eq_left hab]
          omega
      · rcases Nat.le_total a b with hab | hab
        · rw [Nat.max_eq_right hab]; exact Or.inr ob
        · rw [Nat.max_eq_left hab]; exact Or.inl oa
      · intro j hj
        rcases hj with hj | hj
        · exact Nat.le_trans (ma j hj) (Nat.le_max_left a b)
        · exact Nat.le_trans (mb j hj) (Nat.le_max_right a b)

/-- C4: `bound` returns the content unchanged when it fits; otherwise
the result is the truncation note appended to a prefix of the content
of length at most `maxSize`, so the whole result has length at most
`maxSize` plus the note length. -/
theorem c4_bound_shape (content : List Char) (maxSize : Nat)
    (fp root : List Char) (hpos : 0 < maxSize) :
    (content.length ≤ maxSize → truncateContent content maxSize fp root = content)
    ∧ (maxSize < content.length →
        (truncateContent content maxSize fp root).length
            ≤ maxSize + (truncNote fp root).length
        ∧ ∃ k, k ≤ maxSize ∧
            truncateContent content maxSize fp root
              = content.take k ++ truncNote fp root) := by
  constructor
  · intro h
    unfold truncateContent
    rw [if_pos h]
  · intro h
    have hnot : ¬ content.length ≤ maxSize := by omega
    unfold truncateContent
    rw [if_neg hnot]
    by_cases hcut : 5 * truncBoundary (content.take maxSize) > 4 * (maxSize : Int)
    · rw [if_pos hcut]
      constructor
      · simp only [List.length_append, List.length_take]
        omega
      · refine ⟨min (truncBoundary (content.take maxSize)).toNat maxSize,
          Nat.min_le_right _ _, ?_⟩
        rw [List.take_take]
    · rw [if_neg hcut]
      constructor
      · simp only [List.length_append, List.length_take]
        omega
      · exact ⟨maxSize, Nat.le_refl maxSize, rfl⟩

/-- Witness for C4 on concrete inputs: a short content is returned
unchanged, and an overlong content is cut to a prefix plus the note. -/
theorem c4_bound_shape_witness :
    truncateContent "ab".toList 5 "/w/AGENTS.md".toList "/w".toList = "ab".toList
    ∧ ∃ k, k ≤ 5 ∧
        truncateContent "abcdefg".toList 5 "/w/AGENTS.md".toList "/w".toList
          = "abcdefg".toList.take k
            ++ truncNote "/w/AGENTS.md".toList "/w".toList :=
  ⟨(c4_bound_shape "ab".toList 5 "/w/AGENTS.md".toList "/w".toList
      (by decide)).1 (by decide),
   ((c4_bound_shape "abcdefg".toList 5 "/w/AGENTS.md".toList "/w".toList
      (by decide)).2 (by decide)).2⟩

/-- The boundary notion of the claim's wording, as a decidable test: a
paragraph boundary (two consecutive line breaks) or a horizontal-rule
boundary (a line consisting of three OR MORE hyphens) at index `i`. -/
def claimBoundaryAtB (t : List Char) (i : Nat) : Bool :=
  ("\n\n".toList.isPrefixOf (t.drop i)) ||
  ((List.range (t.length + 1)).any fun k =>
     decide (3 ≤ k) && (('\n' :: (List.replicate k '-' ++ ['\n'])).isPrefixOf (t.drop i)))

/-- Decidable test for "some claim-wording boundary lies within the last
20% of the truncated window". -/
def hasClaimBoundaryInTail (t : List Char) (maxSize : Nat) : Bool :=
  (List.range (t.length + 1)).any fun i =>
    decide (4 * maxSize < 5 * i) && claimBoundaryAtB t i

/-- Counterexample content for C3: 41 filler characters, then a
horizontal rule of FOUR hyphens lying entirely within the last 20% of
the 50-character window, then more text. -/
def c3content : List Char :=
  "aaaaaaaaaaaaaaaaaaaaaaaaaaaaaaaaaaaaaaaaa\n----\nbbbcccc".toList

set_option maxRecDepth 20000 in
/-- Counterexample for C3: the truncated window contains a
horizontal-rule boundary (a line of four hyphens) within its last 20%,
yet `truncateContent` cuts at `maxSize`, not at that boundary: the code
searches for the exact substring `"\n---\n"` (exactly three hyphens), so
a four-hyphen rule is not recognized. -/
theorem c3_truncate_boundary_counterexample :
    hasClaimBoundaryInTail (c3content.take 50) 50 = true
    ∧ truncateContent c3content 50 "/w/AGENTS.md".toList "/w".toList
        = c3content.take 50 ++ truncNote "/w/AGENTS.md".toList "/w".toList := by
  constructor
  · decide
  · decide

/-- C3 as amended: with the boundary notion the code implements (an
occurrence of `"\n\n"` or of the exact substring `"\n---\n"`), whenever
such a boundary exists with index in the last 20% of the window
(`5 * i > 4 * maxSize`), the cut is made at the LAST such boundary;
otherwise the cut is at `maxSize`. -/
theorem c3_truncate_boundary_amended (content : List Char) (maxSize : Nat)
    (fp root : List Char) (h : maxSize < content.length) :
    ((∃ i : Nat, amendedBoundaryAt (content.take maxSize) i ∧ 4 * maxSize < 5 * i) →
      ∃ i : Nat, amendedBoundaryAt (content.take maxSize) i ∧ 4 * maxSize < 5 * i
        ∧ (∀ j, amendedBoundaryAt (content.take maxSize) j → j ≤ i)
        ∧ truncateContent content maxSize fp root
            = (content.take maxSize).take i ++ truncNote fp root)
    ∧ ((¬ ∃ i : Nat, amendedBoundaryAt (content.take maxSize) i ∧ 4 * maxSize < 5 * i) →
      truncateContent content maxSize fp root
        = content.take maxSize ++ truncNote fp root) := by
  have hnot : ¬ content.length ≤ maxSize := by omega
  rcases truncBoundary_spec (content.take maxSize) with ⟨hB, hno⟩ | ⟨n, hB, hocc, hmax⟩
  · constructor
    · intro ⟨i, hi, _⟩
      exact absurd hi (hno i)
    · intro _
      unfold truncateContent
      rw [if_neg hnot, if_neg (by rw [hB]; omega)]
  · constructor
    · intro ⟨i, hi, htail⟩
      have hile : i ≤ n := hmax i hi
      have hcut : 5 * truncBoundary (content.take maxSize) > 4 * (maxSize : Int) := by
        rw [hB]
        omega
      refine ⟨n, hocc, by omega, hmax, ?_⟩
      unfold truncateContent
      rw [if_neg hnot, if_pos hcut, hB]
      simp
    · intro hno
      have hnt : ¬ (4 * maxSize < 5 * n) := fun hc => hno ⟨n, hocc, hc⟩
      unfold truncateContent
      rw [if_neg hnot, if_neg (by rw [hB]; omega)]

/-- The witness content for the amended C3: a `"\n\n"` boundary at index
10 of a 12-character window. -/
def c3wContent : List Char := "xxxxxxxxxx\n\ntail".toList

/-- Witness for the amended C3 at a concrete input where the cut does
land on the implemented boundary. -/
theorem c3_truncate_boundary_amended_witness :
    ∃ i : Nat, amendedBoundaryAt (c3wContent.take 12) i ∧ 4 * 12 < 5 * i
      ∧ (∀ j, amendedBoundaryAt (c3wContent.take 12) j → j ≤ i)
      ∧ truncateContent c3wContent 12 "/w/AGENTS.md".toList "/w".toList
          = (c3wContent.take 12).take i
            ++ truncNote "/w/AGENTS.md".toList "/w".toList :=
  (c3_truncate_boundary_amended c3wContent 12 "/w/AGENTS.md".toList "/w".toList
    (by decide)).1 ⟨10, by decide, by decide⟩

/-!  Resolver claims C5, C6 and C8. -/

theorem firstMatch_nil (isFile : List Char → Bool) (dir : List Char) :
    firstMatch isFile dir [] = none := rfl

theorem firstMatch_cons (isFile : List Char → Bool) (dir f : List Char)
    (fs : List (List Char)) :
    firstMatch isFile dir (f :: fs) =
      if isFile (jsJoin dir f) = true then some (jsJoin dir f)
      else firstMatch isFile dir fs := rfl

/-- C5: within one directory, the candidate filenames are tested in
order and the first existing one wins (`firstMatch` is `find?` over the
joined candidates); in particular, with candidates
`["AGENTS.md", "CLAUDE.md"]` and any file system in which the
directory's `AGENTS.md` exists (whether or not `CLAUDE.md` also does),
the resolver returns only the `AGENTS.md` path for that directory. -/
theorem c5_first_candidate_wins :
    (∀ (isFile : List Char → Bool) (d : List Char) (names : List (List Char)),
      firstMatch isFile d names = (names.map (jsJoin d)).find? isFile)
    ∧ ∀ (isFile : List Char → Bool) (d : List Char),
        isFile (jsJoin d "AGENTS.md".toList) = true →
        findAgentsFilesUp isFile d d
            ["AGENTS.md".toList, "CLAUDE.md".toList] false
          = [jsJoin d "AGENTS.md".toList] := by
  constructor
  · intro isFile d names
    induction names with
    | nil => rfl
    | cons f fs ih =>
      rw [List.map_cons]
      by_cases h : isFile (jsJoin d f) = true
      · rw [firstMatch_cons, if_pos h, List.find?_cons_of_pos _ h]
      · rw [firstMatch_cons, if_neg h,
          List.find?_cons_of_neg _ (by simpa using h)]
        exact ih
  · intro isFile d hA
    unfold findAgentsFilesUp
    rw [faWalk_eq, if_pos (Or.inl rfl)]
    unfold visitDir
    rw [if_pos (Or.inr rfl)]
    rw [firstMatch_cons, if_pos hA]
    rfl

/-- A file system containing both `AGENTS.md` and `CLAUDE.md` in the
same directory, for the C5 witness. -/
def c5fs : List Char → Bool := fun p =>
  decide (p = "/w/AGENTS.md".toList ∨ p = "/w/CLAUDE.md".toList)

/-- Witness for C5: with both candidate files present in `/w`, only the
`AGENTS.md` path is returned. -/
theorem c5_first_candidate_wins_witness :
    findAgentsFilesUp c5fs "/w".toList "/w".toList
        ["AGENTS.md".toList, "CLAUDE.md".toList] false
      = [jsJoin "/w".toList "AGENTS.md".toList] :=
  c5_first_candidate_wins.2 c5fs "/w".toList (by decide)

/-- The start directory lies in the root's subtree in the sense that
iterating `path.dirname` from it reaches the root without leaving the
root's string-prefix region. -/
inductive ReachesRoot (root : List Char) : List Char → Prop
  | base : ReachesRoot root root
  | step (d : List Char) : root.isPrefixOf d = true → d ≠ root →
      ReachesRoot root (jsDirname d) → ReachesRoot root d

theorem faWalk_exclude_root_sources (isFile : List Char → Bool)
    (root : List Char) (names : List (List Char)) :
    ∀ (n : Nat) (current p : List Char), pathMeasure current ≤ n →
      p ∈ faWalk isFile root names true current →
      ∃ d, d ≠ root ∧ firstMatch isFile d names = some p := by
  intro n
  induction n using Nat.strong_induction_on with
  | _ n ih =>
    intro current p hn hmem
    rw [faWalk_eq] at hmem
    have hvisit : ∀ q, q ∈ visitDir isFile current root names true →
        current ≠ root ∧ firstMatch isFile current names = some q := by
      intro q hq
      unfold visitDir at hq
      by_cases hc : ¬ current = root ∨ (true : Bool) = false
      · rw [if_pos hc] at hq
        rcases hc with hc | hc
        · rcases hm : firstMatch isFile current names with _ | v
          · rw [hm] at hq; simp [Option.toList] at hq
          · rw [hm] at hq
            simp only [Option.toList] at hq
            have hqv := List.mem_singleton.mp hq
            subst hqv
            exact ⟨hc, rfl⟩
        · cases hc
      · rw [if_neg hc] at hq
        cases hq
    by_cases hstop :
        current = root ∨ (¬ root.isPrefixOf current = true ∧ current ≠ root)
    · rw [if_pos hstop] at hmem
      obtain ⟨hne, hm⟩ := hvisit p hmem
      exact ⟨current, hne, hm⟩
    · rw [if_neg hstop] at hmem
      by_cases hpar : jsDirname current = current
      · rw [if_pos hpar] at hmem
        obtain ⟨hne, hm⟩ := hvisit p hmem
        exact ⟨current, hne, hm⟩
      · rw [if_neg hpar] at hmem
        rcases List.mem_append.mp hmem with hmem | hmem
        · obtain ⟨hne, hm⟩ := hvisit p hmem
          exact ⟨current, hne, hm⟩
        · have hlt := pathMeasure_dirname_lt current hpar
          exact ih (pathMeasure (jsDirname current)) (by omega)
            (jsDirname current) p (Nat.le_refl _) hmem

theorem faWalk_include_root (isFile : List Char → Bool) (root : List Char)
    (names : List (List Char)) (p : List Char) :
    ∀ start, ReachesRoot root start →
      firstMatch isFile root names = some p →
      p ∈ faWalk isFile root names false start := by
  intro start hreach
  induction hreach with
  | base =>
    intro hfm
    rw [faWalk_eq, if_pos (Or.inl rfl)]
    unfold visitDir
    rw [if_pos (Or.inr rfl), hfm]
    exact List.mem_singleton.mpr rfl
  | step d hpre hne _ ihd =>
    intro hfm
    by_cases hpar : jsDirname d = d
    · have := ihd hfm
      rw [hpar] at this
      exact this
    · have hstop : ¬ (d = root ∨ (¬ root.isPrefixOf d = true ∧ d ≠ root)) := by
        intro hc
        rcases hc with hc | ⟨hc, _⟩
        · exact hne hc
        · exact hc hpre
      rw [faWalk_eq, if_neg hstop, if_neg hpar]
      exact List.mem_append_right _ (ihd hfm)

/-- C6: with `excludeRoot = true` every returned fragment comes from a
filename test in a directory other than the workspace root (the root is
never tested), while with `excludeRoot = false` the root's match is
included whenever the walk reaches the root and the root has one. -/
theorem c6_exclude_root :
    (∀ (isFile : List Char → Bool) (root : List Char)
        (names : List (List Char)) (start p : List Char),
      p ∈ findAgentsFilesUp isFile start root names true →
      ∃ d, d ≠ root ∧ firstMatch isFile d names = some p)
    ∧ ∀ (isFile : List Char → Bool) (root : List Char)
        (names : List (List Char)) (start p : List Char),
      ReachesRoot root start → firstMatch isFile root names = some p →
      p ∈ findAgentsFilesUp isFile start root names false := by
  constructor
  · intro isFile root names start p hmem
    unfold findAgentsFilesUp at hmem
    rw [List.mem_reverse] at hmem
    exact faWalk_exclude_root_sources isFile root names
      (pathMeasure start) start p (Nat.le_refl _) hmem
  · intro isFile root names start p hreach hfm
    unfold findAgentsFilesUp
    rw [List.mem_reverse]
    exact faWalk_include_root isFile root names p start hreach hfm

/-- A file system with an `AGENTS.md` both at the root `/w` and in the
subdirectory `/w/s`, for the C6 witness. -/
def c6fs : List Char → Bool := fun p =>
  decide (p = "/w/AGENTS.md".toList ∨ p = "/w/s/AGENTS.md".toList)

/-- Witness for C6: from `/w/s` under root `/w`, with `excludeRoot` the
subdirectory fragment is returned and is sourced outside the root, and
without `excludeRoot` the root's own `AGENTS.md` is included. -/
theorem c6_exclude_root_witness :
    (∃ d, d ≠ "/w".toList ∧
      firstMatch c6fs d ["AGENTS.md".toList, "CLAUDE.md".toList]
        = some "/w/s/AGENTS.md".toList)
    ∧ "/w/AGENTS.md".toList ∈ findAgentsFilesUp c6fs "/w/s".toList "/w".toList
        ["AGENTS.md".toList, "CLAUDE.md".toList] false :=
  ⟨c6_exclude_root.1 c6fs "/w".toList ["AGENTS.md".toList, "CLAUDE.md".toList]
      "/w/s".toList "/w/s/AGENTS.md".toList (by decide),
   c6_exclude_root.2 c6fs "/w".toList ["AGENTS.md".toList, "CLAUDE.md".toList]
      "/w/s".toList "/w/AGENTS.md".toList
      (ReachesRoot.step "/w/s".toList (by decide) (by decide)
        ((by decide : jsDirname "/w/s".toList = "/w".toList) ▸ ReachesRoot.base))
      (by decide)⟩

theorem faWalkFuel_reaches (isFile : List Char → Bool) (root : List Char)
    (names : List (List Char)) (exR : Bool) :
    ∀ (n : Nat) (current : List Char), pathMeasure current ≤ n →
      faWalkFuel isFile root names exR n current
        = some (faWalk isFile root names exR current) := by
  intro n
  induction n with
  | zero =>
    intro current hn
    have := pathMeasure_pos current
    omega
  | succ k ih =>
    intro current hn
    rw [faWalkFuel, faWalk_eq]
    by_cases hstop :
        current = root ∨ (¬ root.isPrefixOf current = true ∧ current ≠ root)
    · rw [if_pos hstop, if_pos hstop]
    · rw [if_neg hstop, if_neg hstop]
      by_cases hpar : jsDirname current = current
      · rw [if_pos hpar, if_pos hpar]
      · rw [if_neg hpar, if_neg hpar]
        have hlt := pathMeasure_dirname_lt current hpar
        rw [ih (jsDirname current) (by omega)]
        rfl

/-- C8: the ancestor walk always halts: for every input there is an
iteration count after which the literal `while (true)` loop has
finished, with value the (total) `findAgentsFilesUp` result, so the
resolver is a total function of its inputs. -/
theorem c8_walk_terminates (isFile : List Char → Bool) (root : List Char)
    (names : List (List Char)) (exR : Bool) (start : List Char) :
    ∃ fuel, (faWalkFuel isFile root names exR fuel start).map List.reverse
      = some (findAgentsFilesUp isFile start root names exR) := by
  refine ⟨pathMeasure start, ?_⟩
  rw [faWalkFuel_reaches isFile root names exR (pathMeasure start) start
    (Nat.le_refl _)]
  rfl

/-!  Claim C9: a fragment whose read throws is skipped, stays
undelivered, and the remaining fragments are still processed. -/

theorem processFragments_nil (fsRead : List Char → Option (List Char))
    (maxSize : Nat) (root : List Char) (delivered : List (List Char)) :
    processFragments fsRead maxSize root delivered [] = ([], delivered) := rfl

theorem processFragments_cons (fsRead : List Char → Option (List Char))
    (maxSize : Nat) (root p : List Char)
    (delivered ps : List (List Char)) :
    processFragments fsRead maxSize root delivered (p :: ps) =
      if p ∈ delivered then processFragments fsRead maxSize root delivered ps
      else
        match fsRead p with
        | none => processFragments fsRead maxSize root delivered ps
        | some content =>
          (fragmentLabel root p content maxSize
              :: (processFragments fsRead maxSize root (delivered ++ [p]) ps).1,
           (processFragments fsRead maxSize root (delivered ++ [p]) ps).2) := rfl

/-- C9: if reading fragment `p` throws (`fsRead p = none`) and `p` is
not yet delivered, then the fragment loop leaves `p` out of the final
delivered set, and the whole loop behaves exactly as if `p` were absent
from the fragment list — the remaining fragments are processed
unchanged. -/
theorem c9_read_failure_skipped (fsRead : List Char → Option (List Char))
    (maxSize : Nat) (root : List Char) (files : List (List Char))
    (delivered : List (List Char)) (p : List Char)
    (hread : fsRead p = none) (hnd : p ∉ delivered) :
    p ∉ (processFragments fsRead maxSize root delivered files).2
    ∧ processFragments fsRead maxSize root delivered files
        = processFragments fsRead maxSize root delivered
            (files.filter fun q => decide (q ≠ p)) := by
  induction files generalizing delivered with
  | nil =>
    refine ⟨?_, rfl⟩
    rw [processFragments_nil]
    exact hnd
  | cons q qs ih =>
    by_cases hq : q = p
    · subst hq
      have hlhs : processFragments fsRead maxSize root delivered (q :: qs)
          = processFragments fsRead maxSize root delivered qs := by
        rw [processFragments_cons, if_neg hnd, hread]
      have hfq : (q :: qs).filter (fun x => decide (x ≠ q))
          = qs.filter (fun x => decide (x ≠ q)) := by
        rw [List.filter_cons]
        simp
      rw [hlhs, hfq]
      exact ih delivered hnd
    · have hkeep : (q :: qs).filter (fun x => decide (x ≠ p))
          = q :: qs.filter (fun x => decide (x ≠ p)) := by
        rw [List.filter_cons]
        simp [hq]
      by_cases hqd : q ∈ delivered
      · rw [processFragments_cons, if_pos hqd, hkeep,
          processFragments_cons, if_pos hqd]
        exact ih delivered hnd
      · cases hr : fsRead q with
        | none =>
          rw [processFragments_cons, if_neg hqd, hr, hkeep,
            processFragments_cons, if_neg hqd, hr]
          exact ih delivered hnd
        | some content =>
          have hnd2 : p ∉ delivered ++ [q] := by
            simp only [List.mem_append, List.mem_singleton]
            rintro (hc | hc)
            · exact hnd hc
            · exact hq hc.symm
          obtain ⟨ih1, ih2⟩ := ih (delivered ++ [q]) hnd2
          rw [processFragments_cons, if_neg hqd, hr, hkeep,
            processFragments_cons, if_neg hqd, hr]
          refine ⟨?_, ?_⟩
          · simpa using ih1
          · rw [ih2]
  -- end of proof

/-- Witness for C9: with a two-fragment list whose first read throws,
the first path stays undelivered and the second fragment is processed. -/
theorem c9_read_failure_skipped_witness :
    "/w/s/AGENTS.md".toList
        ∉ (processFragments
            (fun p => if p = "/w/AGENTS.md".toList then some "doc".toList else none)
            2000 "/w".toList []
            ["/w/s/AGENTS.md".toList, "/w/AGENTS.md".toList]).2
    ∧ processFragments
          (fun p => if p = "/w/AGENTS.md".toList then some "doc".toList else none)
          2000 "/w".toList []
          ["/w/s/AGENTS.md".toList, "/w/AGENTS.md".toList]
        = processFragments
            (fun p => if p = "/w/AGENTS.md".toList then some "doc".toList else none)
            2000 "/w".toList []
            (["/w/s/AGENTS.md".toList, "/w/AGENTS.md".toList].filter
              fun q => decide (q ≠ "/w/s/AGENTS.md".toList)) :=
  c9_read_failure_skipped
    (fun p => if p = "/w/AGENTS.md".toList then some "doc".toList else none)
    2000 "/w".toList ["/w/s/AGENTS.md".toList, "/w/AGENTS.md".toList] []
    "/w/s/AGENTS.md".toList (by decide) (by decide)

/-!  Claims C7 (frame shape of the handler result), C2 (path safety)
and C10 (the containment test is purely textual). -/

/-- C7: (general frame) every handler invocation either leaves the
result payload untouched (returns nothing) or returns the original
content blocks unchanged and in order followed by exactly one
additional text block holding the accumulated fragments joined by the
fixed separator, with the `details` and `isError` fields unchanged; and
(both directions, for a read invocation that passes the guards) when no
undelivered fragments are accumulated the payload IS untouched, and
when some are accumulated the handler DOES return exactly that
augmented payload. -/
theorem c7_result_frame (isFile : List Char → Bool)
    (fsRead : List Char → Option (List Char)) (cfg : Config)
    (rootDir : List Char) (st : CacheState) (sid : List Char)
    (ev : ToolEvent) :
    ((onToolResult isFile fsRead cfg rootDir st sid ev).result = none
      ∨ ∃ fp, ev.inputPath = some fp
          ∧ (handlerAcc isFile fsRead cfg rootDir st sid fp).1 ≠ []
          ∧ (onToolResult isFile fsRead cfg rootDir st sid ev).result
              = some ⟨ev.content
                  ++ [Block.text (CONTEXT_SEPARATOR
                        ++ List.intercalate CONTEXT_SEPARATOR
                            (handlerAcc isFile fsRead cfg rootDir st sid fp).1)],
                ev.details, ev.isError⟩)
    ∧ ∀ fp, ev.toolName = "read".toList → ev.inputPath = some fp → fp ≠ [] →
        (jsResolve rootDir).isPrefixOf (jsResolve (absTarget rootDir fp)) = true →
        ((handlerAcc isFile fsRead cfg rootDir st sid fp).1 = [] →
          (onToolResult isFile fsRead cfg rootDir st sid ev).result = none)
        ∧ ((handlerAcc isFile fsRead cfg rootDir st sid fp).1 ≠ [] →
          (onToolResult isFile fsRead cfg rootDir st sid ev).result
            = some ⟨ev.content
                ++ [Block.text (CONTEXT_SEPARATOR
                      ++ List.intercalate CONTEXT_SEPARATOR
                          (handlerAcc isFile fsRead cfg rootDir st sid fp).1)],
              ev.details, ev.isError⟩) := by
  constructor
  · unfold onToolResult
    by_cases h1 : ev.toolName ≠ "read".toList
    · rw [if_pos h1]
      exact Or.inl rfl
    · rw [if_neg h1]
      cases hin : ev.inputPath with
      | none => exact Or.inl rfl
      | some fp =>
        dsimp only
        by_cases h2 : fp = []
        · rw [if_pos h2]
          exact Or.inl rfl
        · rw [if_neg h2]
          by_cases h3 : ¬ (jsResolve rootDir).isPrefixOf
              (jsResolve (absTarget rootDir fp)) = true
          · rw [if_pos h3]
            exact Or.inl rfl
          · rw [if_neg h3]
            unfold handlerCore
            by_cases h4 : handlerAgents isFile cfg rootDir fp = []
            · rw [if_pos h4]
              exact Or.inl rfl
            · rw [if_neg h4]
              by_cases h5 : (handlerAcc isFile fsRead cfg rootDir st sid fp).1 = []
              · rw [if_pos h5]
                exact Or.inl rfl
              · rw [if_neg h5]
                exact Or.inr ⟨fp, rfl, h5, rfl⟩
  · intro fp hname hin hfp hok
    have hg1 : ¬ (ev.toolName ≠ "read".toList) := fun hc => hc hname
    unfold onToolResult
    rw [if_neg hg1]
    simp only [hin]
    rw [if_neg hfp, if_neg (not_not_intro hok)]
    unfold handlerCore
    constructor
    · intro hacc0
      by_cases h4 : handlerAgents isFile cfg rootDir fp = []
      · rw [if_pos h4]
      · rw [if_neg h4, if_pos hacc0]
    · intro haccne
      have h4 : handlerAgents isFile cfg rootDir fp ≠ [] := by
        intro hg
        apply haccne
        unfold handlerAcc
        rw [hg]
        rfl
      rw [if_neg h4, if_neg haccne]

/-- The default configuration object for concrete runs. -/
def defaultCfg : Config :=
  ⟨2000, ["AGENTS.md".toList, "CLAUDE.md".toList, "CLA.md".toList], true⟩

/-- File system for the C7 witness: `AGENTS.md` at the root `/w` and in
the subdirectory `/w/s`. -/
def c7fs : List Char → Bool := fun p =>
  decide (p = "/w/AGENTS.md".toList ∨ p = "/w/s/AGENTS.md".toList)

/-- File contents for the C7 witness: only `/w/s/AGENTS.md` is
readable. -/
def c7read : List Char → Option (List Char) := fun p =>
  if p = "/w/s/AGENTS.md".toList then some "subdoc".toList else none

/-- A read event of `/w/s/a.ts` with one pre-existing opaque content
block, for the C7 witness. -/
def c7ev : ToolEvent :=
  ⟨"read".toList, some "/w/s/a.ts".toList, [Block.other 7], 3, false⟩

/-- Witness for C7: a concrete read that accumulates one fragment and
therefore returns the original block followed by exactly one appended
text block, with `details` and `isError` unchanged. -/
theorem c7_result_frame_witness :
    (onToolResult c7fs c7read defaultCfg "/w".toList ([] : CacheState)
        "s".toList c7ev).result
      = some ⟨c7ev.content
          ++ [Block.text (CONTEXT_SEPARATOR
                ++ List.intercalate CONTEXT_SEPARATOR
                    (handlerAcc c7fs c7read defaultCfg "/w".toList
                      ([] : CacheState) "s".toList "/w/s/a.ts".toList).1)],
        c7ev.details, c7ev.isError⟩ := by
  have hacc : (handlerAcc c7fs c7read defaultCfg "/w".toList
      ([] : CacheState) "s".toList "/w/s/a.ts".toList).1 ≠ [] := by decide
  have h := (c7_result_frame c7fs c7read defaultCfg "/w".toList
    ([] : CacheState) "s".toList c7ev).2
    "/w/s/a.ts".toList rfl rfl (by decide) (by decide)
  exact h.2 hacc

/-- C2: for a read event with a usable path argument, if the resolved
target fails the canonical-root containment check the handler emits the
warning, performs no cache mutation and no injection (the state is
returned unchanged and no replacement result is produced; the handler
is a total function, so it never throws); if the check passes, the
handler proceeds without the warning. -/
theorem c2_path_safety (isFile : List Char → Bool)
    (fsRead : List Char → Option (List Char)) (cfg : Config)
    (rootDir : List Char) (st : CacheState) (sid : List Char)
    (ev : ToolEvent) (fp : List Char)
    (hname : ev.toolName = "read".toList) (hin : ev.inputPath = some fp)
    (hfp : fp ≠ []) :
    (¬ (jsResolve rootDir).isPrefixOf (jsResolve (absTarget rootDir fp)) = true →
      onToolResult isFile fsRead cfg rootDir st sid ev = ⟨none, st, true⟩)
    ∧ ((jsResolve rootDir).isPrefixOf (jsResolve (absTarget rootDir fp)) = true →
      (onToolResult isFile fsRead cfg rootDir st sid ev).warned = false) := by
  have hg1 : ¬ (ev.toolName ≠ "read".toList) := fun hc => hc hname
  constructor
  · intro hout
    unfold onToolResult
    rw [if_neg hg1]
    simp only [hin]
    rw [if_neg hfp, if_pos hout]
  · intro hok
    unfold onToolResult
    rw [if_neg hg1]
    simp only [hin]
    rw [if_neg hfp, if_neg (not_not_intro hok)]
    unfold handlerCore
    by_cases h4 : handlerAgents isFile cfg rootDir fp = []
    · rw [if_pos h4]
    · rw [if_neg h4]
      by_cases h5 : (handlerAcc isFile fsRead cfg rootDir st sid fp).1 = []
      · rw [if_pos h5]
      · rw [if_neg h5]

/-- Witness for C2: under root `/work`, the traversal argument
`../../etc/passwd` resolves to `/etc/passwd`, is rejected with the
warning and no state change; the in-root path `/work/src/a.ts`
proceeds without the warning. -/
theorem c2_path_safety_witness :
    onToolResult (fun _ => false) (fun _ => none) defaultCfg "/work".toList
        [] "s".toList
        ⟨"read".toList, some "../../etc/passwd".toList, [], 0, false⟩
      = ⟨none, [], true⟩
    ∧ (onToolResult (fun _ => false) (fun _ => none) defaultCfg "/work".toList
        [] "s".toList
        ⟨"read".toList, some "/work/src/a.ts".toList, [], 0, false⟩).warned
      = false :=
  ⟨(c2_path_safety (fun _ => false) (fun _ => none) defaultCfg "/work".toList
      [] "s".toList
      ⟨"read".toList, some "../../etc/passwd".toList, [], 0, false⟩
      "../../etc/passwd".toList rfl rfl (by decide)).1 (by decide),
   (c2_path_safety (fun _ => false) (fun _ => none) defaultCfg "/work".toList
      [] "s".toList
      ⟨"read".toList, some "/work/src/a.ts".toList, [], 0, false⟩
      "/work/src/a.ts".toList rfl rfl (by decide)).2 (by decide)⟩

/-- True directory containment, from the spec's intent: `p` is the root
itself or lies under `root` followed by a separator. -/
def specInsideDir (root p : List Char) : Prop :=
  (root ++ ['/']).isPrefixOf p = true ∨ p = root

instance specInsideDir.instDecidable (root p : List Char) :
    Decidable (specInsideDir root p) := by
  unfold specInsideDir
  infer_instance

/-- C10: the containment check is purely textual.  With workspace root
`/work`, the path `/workspace/a.ts` is not inside the root directory,
yet both the read-hook check (no warning emitted, resolution proceeds)
and the `inject_context` tool's check (no error) accept it, because the
canonical root string is a string-prefix of the canonical path. -/
theorem c10_textual_containment :
    (onToolResult (fun _ => false) (fun _ => none) defaultCfg "/work".toList
        [] "s".toList
        ⟨"read".toList, some "/workspace/a.ts".toList, [], 0, false⟩).warned
      = false
    ∧ (injectExecute (fun _ => false) (fun _ => none) defaultCfg
        "/work".toList "/workspace".toList).isError = false
    ∧ ¬ specInsideDir "/work".toList "/workspace/a.ts".toList := by
  refine ⟨?_, ?_, ?_⟩
  · decide
  · decide
  · decide
